import Mathlib

/-!
Shallow embedding of `midilint.py`: a stream of MIDI-style tracks whose
messages carry a kind, a delta-time, a pitch and a velocity, together with
the three transforms `normalize`, `align` and `correct_pitch` and the three
pitch-correction strategies `shift_up`, `shift_down` and `shift_nearest`.
Python exceptions (`ValueError` from the power-of-two checks and from
`min` on an empty list, `ZeroDivisionError` from `% 0`) are modelled by an
`Except` result.
-/

set_option autoImplicit false

namespace Midilint

/-- The message kinds the transforms distinguish: `note_on`, `note_off`,
and everything else (`other`). -/
inductive EventKind where
  | note_on
  | note_off
  | other
  deriving DecidableEq, Repr

/-- One `mido` message, restricted to the fields the transforms read or
write: `type`, `time` (delta-time), `note` (pitch) and `velocity`. -/
structure Message where
  type : EventKind
  time : Int
  note : Int
  velocity : Int
  deriving DecidableEq, Repr

/-- A `mido.MidiFile`, restricted to `ticks_per_beat` and `tracks`. -/
structure MidiFile where
  ticks_per_beat : Nat
  tracks : List (List Message)
  deriving DecidableEq, Repr

/-- The Python exceptions the transforms can raise. -/
inductive PyError where
  | valueError
  | zeroDivisionError
  deriving DecidableEq, Repr

/-- `message.type in ("note_on", "note_off")`. -/
def isNote (m : Message) : Bool :=
  match m.type with
  | .note_on => true
  | .note_off => true
  | .other => false

/-- Ones in the binary representation, with explicit fuel (the fuel is the
number itself, which bounds the number of halvings); models
`bin(n).count('1')`. -/
def popcountGo : Nat → Nat → Nat
  | _, 0 => 0
  | 0, _ + 1 => 0
  | fuel + 1, n + 1 => popcountGo fuel ((n + 1) / 2) + (n + 1) % 2

/-- `bin(n).count('1')`: the number of ones in the binary representation. -/
def popcount (n : Nat) : Nat := popcountGo n n

/-- Round-half-to-even of the exact rational `a / b`, written with euclidean
quotient and remainder; models Python `round(a / b)` for a positive
integer `b` (the division in the source is exact in float for the
power-of-two ticks the grid uses). -/
def rhe (a : Int) (b : Nat) : Int :=
  if 2 * (a % (b : Int)) < (b : Int) then a / (b : Int)
  else if (b : Int) < 2 * (a % (b : Int)) then a / (b : Int) + 1
  else if (a / (b : Int)) % 2 = 0 then a / (b : Int) else a / (b : Int) + 1

theorem two_mul_abs_le_iff (x y : Int) : 2 * |x| ≤ y ↔ -y ≤ 2 * x ∧ 2 * x ≤ y := by
  have h : 2 * |x| = |2 * x| := by
    rw [abs_mul]
    norm_num
  rw [h, abs_le]

theorem rhe_err_bound (a : Int) (b : Nat) (hb : 0 < b) :
    2 * |a - (b : Int) * rhe a b| ≤ (b : Int) := by
  have hbz : (b : Int) ≠ 0 := by exact_mod_cast hb.ne'
  have hbi : (0 : Int) < (b : Int) := by exact_mod_cast hb
  have hq : (b : Int) * (a / (b : Int)) + a % (b : Int) = a := Int.ediv_add_emod a b
  have hr0 : 0 ≤ a % (b : Int) := Int.emod_nonneg a hbz
  have hrb : a % (b : Int) < (b : Int) := Int.emod_lt_of_pos a hbi
  unfold rhe
  split_ifs with h1 h2 h3 <;>
    rw [two_mul_abs_le_iff] <;>
    constructor <;> nlinarith [hq, hr0, hrb]

theorem rhe_dvd (a : Int) (b : Nat) (hb : 0 < b) (h : (b : Int) ∣ a) :
    (b : Int) * rhe a b = a := by
  have hbz : (b : Int) ≠ 0 := by exact_mod_cast hb.ne'
  have hbi : (0 : Int) < (b : Int) := by exact_mod_cast hb
  have hr : a % (b : Int) = 0 := Int.emod_eq_zero_of_dvd h
  unfold rhe
  rw [hr]
  simp only [mul_zero, hbi, if_pos]
  exact Int.mul_ediv_cancel' h

theorem rhe_nonneg (a : Int) (b : Nat) (hb : 0 < b) (h : -(b : Int) ≤ 2 * a) :
    0 ≤ rhe a b := by
  have hbz : (b : Int) ≠ 0 := by exact_mod_cast hb.ne'
  have hbi : (0 : Int) < (b : Int) := by exact_mod_cast hb
  have hq : (b : Int) * (a / (b : Int)) + a % (b : Int) = a := Int.ediv_add_emod a b
  have hr0 : 0 ≤ a % (b : Int) := Int.emod_nonneg a hbz
  have hrb : a % (b : Int) < (b : Int) := Int.emod_lt_of_pos a hbi
  have hqm1 : -1 ≤ a / (b : Int) := by
    rw [Int.le_ediv_iff_mul_le hbi]
    nlinarith
  rcases lt_or_le (a / (b : Int)) 0 with hneg | hpos
  · have hq1 : a / (b : Int) = -1 := by omega
    unfold rhe
    rw [hq1] at hq ⊢
    split_ifs with h1 h2 h3 <;> omega
  · unfold rhe
    split_ifs <;> omega

/-- The quantization step of the spec's algorithm on one delta-time `t`
with incoming carry `shift`: the quantized delta-time
`tick * round((t + shift) / tick)` and the new carry
`(t + shift) - quantized`. -/
def quantize (tick : Nat) (shift t : Int) : Int × Int :=
  ((tick : Int) * rhe (t + shift) tick, (t + shift) - (tick : Int) * rhe (t + shift) tick)

/-- The per-track loop of `align`, translated clause by clause from the
source: non-note messages are skipped (`continue`); for a note message the
source evaluates `message.time + shift % tick` (Python precedence binds
`%` first), raising `ZeroDivisionError` when `tick = 0`, and only when
that quantity is nonzero quantizes the delta-time and updates `shift`. -/
def alignTrack (tick : Nat) : Int → List Message → Except PyError (List Message)
  | _, [] => .ok []
  | shift, m :: ms =>
    if isNote m then
      if tick = 0 then .error .zeroDivisionError
      else if m.time + shift % (tick : Int) ≠ 0 then
        match alignTrack tick (quantize tick shift m.time).2 ms with
        | .error e => .error e
        | .ok ms' => .ok ({ m with time := (quantize tick shift m.time).1 } :: ms')
      else
        match alignTrack tick shift ms with
        | .error e => .error e
        | .ok ms' => .ok (m :: ms')
    else
      match alignTrack tick shift ms with
      | .error e => .error e
      | .ok ms' => .ok (m :: ms')

/-- Modelled from the spec: the per-track algorithm of §4.2 applied
uniformly — every note message runs through the quantization formula
(an on-grid message being a no-op), non-note messages are left untouched
and do not participate in the carry. Companion definition used to state
that `alignTrack` refines the spec's words. -/
def alignTrackSpec (tick : Nat) : Int → List Message → List Message
  | _, [] => []
  | shift, m :: ms =>
    if isNote m then
      { m with time := (quantize tick shift m.time).1 } ::
        alignTrackSpec tick (quantize tick shift m.time).2 ms
    else m :: alignTrackSpec tick shift ms

/-- The value of the carry accumulator after `alignTrackSpec` has
processed a whole track. -/
def alignShift (tick : Nat) : Int → List Message → Int
  | shift, [] => shift
  | shift, m :: ms =>
    if isNote m then alignShift tick (quantize tick shift m.time).2 ms
    else alignShift tick shift ms

/-- Sum of the delta-times of the note-on/note-off messages of a track. -/
def noteTimeSum : List Message → Int
  | [] => 0
  | m :: ms => (if isNote m then m.time else 0) + noteTimeSum ms

/-- Sequential traversal of a list by a fallible function, stopping at the
first error; models a Python `for` loop whose body may raise. -/
def exceptMap {α β : Type} (f : α → Except PyError β) : List α → Except PyError (List β)
  | [] => .ok []
  | a :: as =>
    match f a with
    | .error e => .error e
    | .ok b =>
      match exceptMap f as with
      | .error e => .error e
      | .ok bs => .ok (b :: bs)

/-- `align(source, precision)` from the source: reject (with the Python
`ValueError`) a `ticks_per_beat` or a `precision` whose binary
representation does not have exactly one `1`, compute
`tick = ticks_per_beat // precision`, then run the per-track loop with the
carry reset to `0` at the start of each track. -/
def align (source : MidiFile) (precision : Nat) : Except PyError MidiFile :=
  if popcount source.ticks_per_beat ≠ 1 then .error .valueError
  else if popcount precision ≠ 1 then .error .valueError
  else
    match exceptMap (alignTrack (source.ticks_per_beat / precision) 0) source.tracks with
    | .error e => .error e
    | .ok ts => .ok { source with tracks := ts }

/-- `normalize(source, velocity)` from the source: set the velocity of
every note-on/note-off message. -/
def normalize (source : MidiFile) (velocity : Int) : MidiFile :=
  { source with
    tracks := source.tracks.map (List.map fun m =>
      if isNote m then { m with velocity := velocity } else m) }

theorem quantize_snd_bound (tick : Nat) (ht : 0 < tick) (shift t : Int) :
    2 * |(quantize tick shift t).2| ≤ (tick : Int) :=
  rhe_err_bound (t + shift) tick ht

theorem quantize_dvd (tick : Nat) (ht : 0 < tick) (t : Int) (h : (tick : Int) ∣ t) :
    quantize tick 0 t = (t, 0) := by
  unfold quantize
  rw [add_zero, rhe_dvd t tick ht h]
  simp

theorem quantize_fst_dvd (tick : Nat) (shift t : Int) :
    (tick : Int) ∣ (quantize tick shift t).1 :=
  ⟨rhe (t + shift) tick, rfl⟩

theorem quantize_fst_nonneg (tick : Nat) (ht : 0 < tick) (shift t : Int)
    (hs : 2 * |shift| ≤ (tick : Int)) (htt : 0 ≤ t) : 0 ≤ (quantize tick shift t).1 := by
  have hti : (0 : Int) ≤ (tick : Int) := by exact_mod_cast ht.le
  rw [two_mul_abs_le_iff] at hs
  exact mul_nonneg hti (rhe_nonneg (t + shift) tick ht (by linarith [hs.1]))

theorem shift_eq_zero_of_emod (tick : Nat) (ht : 0 < tick) (shift : Int)
    (hs : 2 * |shift| ≤ (tick : Int)) (h : shift % (tick : Int) = 0) : shift = 0 := by
  obtain ⟨k, hk⟩ := Int.dvd_of_emod_eq_zero h
  have hti : (0 : Int) < (tick : Int) := by exact_mod_cast ht
  subst hk
  rw [abs_mul, abs_of_pos hti] at hs
  have hk0 : |k| = 0 := by nlinarith [abs_nonneg k]
  have : k = 0 := abs_eq_zero.mp hk0
  simp [this]

/-- The source's per-track loop agrees with the spec's uniform algorithm:
given a positive grid unit, non-negative note delta-times and a carry at
most half a grid unit in magnitude (which `0` is), the skip branch of the
source's `if` only ever fires where the quantization formula is a no-op. -/
theorem alignTrack_eq_spec (tick : Nat) (ht : 0 < tick) :
    ∀ (l : List Message) (shift : Int), (∀ m ∈ l, isNote m = true → 0 ≤ m.time) →
      2 * |shift| ≤ (tick : Int) →
      alignTrack tick shift l = .ok (alignTrackSpec tick shift l) := by
  intro l
  induction l with
  | nil => intro shift _ _; simp [alignTrack, alignTrackSpec]
  | cons m ms ih =>
    intro shift hnn hs
    have hnn' : ∀ x ∈ ms, isNote x = true → 0 ≤ x.time := fun x hx => hnn x (by simp [hx])
    cases hn : isNote m with
    | true =>
      by_cases hc : m.time + shift % (tick : Int) ≠ 0
      · rw [alignTrack, alignTrackSpec, if_pos hn, if_pos hn, if_neg ht.ne', if_pos hc,
          ih (quantize tick shift m.time).2 hnn' (quantize_snd_bound tick ht shift m.time)]
      · push_neg at hc
        have hti : (0 : Int) < (tick : Int) := by exact_mod_cast ht
        have hm0 : 0 ≤ m.time := hnn m (by simp) hn
        have hr0 : 0 ≤ shift % (tick : Int) := Int.emod_nonneg shift hti.ne'
        have hmz : m.time = 0 := by linarith
        have hez : shift % (tick : Int) = 0 := by linarith
        have hsz : shift = 0 := shift_eq_zero_of_emod tick ht shift hs hez
        subst hsz
        rw [alignTrack, alignTrackSpec, if_pos hn, if_pos hn, if_neg ht.ne',
          if_neg (fun hne => hne hc), ih 0 hnn' hs,
          show quantize tick 0 m.time = (m.time, 0) by
            rw [hmz]; exact quantize_dvd tick ht 0 (dvd_zero _)]
    | false =>
      rw [alignTrack, alignTrackSpec, if_neg (by simp [hn]), if_neg (by simp [hn]),
        ih shift hnn' hs]

theorem exceptMap_ok_of_all {α β : Type} (f : α → Except PyError β) (g : α → β)
    (l : List α) (h : ∀ a ∈ l, f a = .ok (g a)) : exceptMap f l = .ok (l.map g) := by
  induction l with
  | nil => rfl
  | cons a as ih =>
    rw [List.map_cons, exceptMap, h a (by simp), ih fun x hx => h x (by simp [hx])]

theorem popcountGo_two_pow : ∀ fuel k : Nat, 2 ^ k ≤ fuel → popcountGo fuel (2 ^ k) = 1 := by
  intro fuel k
  induction k generalizing fuel with
  | zero =>
    intro h
    obtain ⟨f, rfl⟩ : ∃ f, fuel = f + 1 := ⟨fuel - 1, by omega⟩
    simp [popcountGo]
  | succ k ih =>
    intro h
    have hp : 0 < 2 ^ (k + 1) := pow_pos (by norm_num) _
    have hps : 2 ^ k * 2 = 2 ^ (k + 1) := (pow_succ 2 k).symm
    obtain ⟨f, rfl⟩ : ∃ f, fuel = f + 1 := ⟨fuel - 1, by omega⟩
    obtain ⟨m, hm⟩ : ∃ m, 2 ^ (k + 1) = m + 1 := ⟨2 ^ (k + 1) - 1, by omega⟩
    rw [hm]
    show popcountGo f ((m + 1) / 2) + (m + 1) % 2 = 1
    rw [← hm, ← hps, Nat.mul_div_cancel _ (by norm_num), Nat.mul_mod_left]
    exact ih f (by omega)

theorem popcount_two_pow (k : Nat) : popcount (2 ^ k) = 1 :=
  popcountGo_two_pow _ _ le_rfl

/-- `align` on a valid grid succeeds and equals the spec's uniform
per-track algorithm, with the carry reset to `0` for each track. -/
theorem align_eq_spec (s : MidiFile) (p a b : Nat) (ha : s.ticks_per_beat = 2 ^ a)
    (hb : p = 2 ^ b) (hle : p ≤ s.ticks_per_beat)
    (ht : ∀ t ∈ s.tracks, ∀ m ∈ t, isNote m = true → 0 ≤ m.time) :
    align s p =
      .ok { s with tracks := s.tracks.map (alignTrackSpec (s.ticks_per_beat / p) 0) } := by
  have hppos : 0 < p := hb ▸ pow_pos (by norm_num) b
  have htick : 0 < s.ticks_per_beat / p := Nat.div_pos hle hppos
  have c1 : popcount s.ticks_per_beat = 1 := ha ▸ popcount_two_pow a
  have c2 : popcount p = 1 := hb ▸ popcount_two_pow b
  rw [align, if_neg (by omega), if_neg (by omega),
    exceptMap_ok_of_all _ (alignTrackSpec (s.ticks_per_beat / p) 0) _
      fun t htr => alignTrack_eq_spec _ htick t 0 (ht t htr) (by simp; exact_mod_cast htick.le)]

@[simp]
theorem isNote_set_time (m : Message) (q : Int) : isNote { m with time := q } = isNote m := rfl

theorem quantize_snd_eq (tick : Nat) (shift t : Int) :
    (quantize tick shift t).2 = t + shift - (quantize tick shift t).1 := rfl

theorem alignShift_bound (tick : Nat) (ht : 0 < tick) :
    ∀ (l : List Message) (shift : Int), 2 * |shift| ≤ (tick : Int) →
      2 * |alignShift tick shift l| ≤ (tick : Int) := by
  intro l
  induction l with
  | nil => intro shift hs; simpa [alignShift] using hs
  | cons m ms ih =>
    intro shift hs
    cases hn : isNote m with
    | true =>
      rw [alignShift, if_pos hn]
      exact ih _ (quantize_snd_bound tick ht shift m.time)
    | false =>
      rw [alignShift, if_neg (by simp [hn])]
      exact ih shift hs

theorem alignTrackSpec_sum (tick : Nat) :
    ∀ (l : List Message) (shift : Int),
      noteTimeSum (alignTrackSpec tick shift l) + alignShift tick shift l =
        noteTimeSum l + shift := by
  intro l
  induction l with
  | nil => intro shift; simp [alignTrackSpec, alignShift, noteTimeSum]
  | cons m ms ih =>
    intro shift
    cases hn : isNote m with
    | true =>
      rw [alignTrackSpec, alignShift, if_pos hn, if_pos hn, noteTimeSum, noteTimeSum]
      simp only [isNote_set_time, hn, if_pos]
      have h1 := ih (quantize tick shift m.time).2
      have h2 := quantize_snd_eq tick shift m.time
      linarith [h1, h2]
    | false =>
      rw [alignTrackSpec, alignShift, if_neg (by simp [hn]), if_neg (by simp [hn]),
        noteTimeSum, noteTimeSum]
      simp only [hn]
      have := ih shift
      simp only [Bool.false_eq_true, if_false]
      linarith [this]

theorem alignTrackSpec_dvd (tick : Nat) :
    ∀ (l : List Message) (shift : Int), ∀ m' ∈ alignTrackSpec tick shift l,
      isNote m' = true → (tick : Int) ∣ m'.time := by
  intro l
  induction l with
  | nil => intro shift m' hm'; simp [alignTrackSpec] at hm'
  | cons m ms ih =>
    intro shift m' hm' hnote
    cases hn : isNote m with
    | true =>
      rw [alignTrackSpec, if_pos hn] at hm'
      rcases List.mem_cons.mp hm' with rfl | hmem
      · exact quantize_fst_dvd tick shift m.time
      · exact ih _ m' hmem hnote
    | false =>
      rw [alignTrackSpec, if_neg (by simp [hn])] at hm'
      rcases List.mem_cons.mp hm' with rfl | hmem
      · rw [hn] at hnote; cases hnote
      · exact ih shift m' hmem hnote

theorem alignTrackSpec_nonneg (tick : Nat) (ht : 0 < tick) :
    ∀ (l : List Message) (shift : Int), (∀ m ∈ l, isNote m = true → 0 ≤ m.time) →
      2 * |shift| ≤ (tick : Int) →
      ∀ m' ∈ alignTrackSpec tick shift l, isNote m' = true → 0 ≤ m'.time := by
  intro l
  induction l with
  | nil => intro shift _ _ m' hm'; simp [alignTrackSpec] at hm'
  | cons m ms ih =>
    intro shift hnn hs m' hm' hnote
    have hnn' : ∀ x ∈ ms, isNote x = true → 0 ≤ x.time := fun x hx => hnn x (by simp [hx])
    cases hn : isNote m with
    | true =>
      rw [alignTrackSpec, if_pos hn] at hm'
      rcases List.mem_cons.mp hm' with rfl | hmem
      · exact quantize_fst_nonneg tick ht shift m.time hs (hnn m (by simp) hn)
      · exact ih _ hnn' (quantize_snd_bound tick ht shift m.time) m' hmem hnote
    | false =>
      rw [alignTrackSpec, if_neg (by simp [hn])] at hm'
      rcases List.mem_cons.mp hm' with rfl | hmem
      · rw [hn] at hnote; cases hnote
      · exact ih shift hnn' hs m' hmem hnote

theorem alignTrackSpec_idem (tick : Nat) (ht : 0 < tick) :
    ∀ l : List Message, (∀ m ∈ l, isNote m = true → (tick : Int) ∣ m.time) →
      alignTrackSpec tick 0 l = l := by
  intro l
  induction l with
  | nil => intro _; rfl
  | cons m ms ih =>
    intro hd
    have hd' : ∀ x ∈ ms, isNote x = true → (tick : Int) ∣ x.time :=
      fun x hx => hd x (by simp [hx])
    cases hn : isNote m with
    | true =>
      rw [alignTrackSpec, if_pos hn, quantize_dvd tick ht m.time (hd m (by simp) hn)]
      rw [ih hd']
    | false =>
      rw [alignTrackSpec, if_neg (by simp [hn]), ih hd']

/-- A sample stream used to instantiate the hypothesised theorems:
`ticks_per_beat = 4`, one track holding a note-on (delta 5), an `other`
message (delta 3) and a note-off (delta 2). -/
def exStream : MidiFile :=
  ⟨4, [[⟨.note_on, 5, 60, 90⟩, ⟨.other, 3, 0, 0⟩, ⟨.note_off, 2, 60, 90⟩]]⟩

/-- Claim C1: on a stream whose `pulses_per_beat` and `precision` are powers
of two with `precision ≤ pulses_per_beat`, `align` processes each track
independently with a carry starting at `0`, setting every note-on/note-off
delta-time to `tick * round((delta_time + shift) / tick)` with
round-half-to-even and carrying the signed rounding error into `shift`;
a delta-time that is already an exact multiple of `tick` under zero carry is
a no-op of the formula and leaves the carry at zero. -/
theorem C1_align_formula (s : MidiFile) (p a b : Nat) (ha : s.ticks_per_beat = 2 ^ a)
    (hb : p = 2 ^ b) (hle : p ≤ s.ticks_per_beat)
    (ht : ∀ t ∈ s.tracks, ∀ m ∈ t, isNote m = true → 0 ≤ m.time) :
    align s p =
        .ok { s with tracks := s.tracks.map (alignTrackSpec (s.ticks_per_beat / p) 0) } ∧
      ∀ t : Int, ((s.ticks_per_beat / p : Nat) : Int) ∣ t →
        quantize (s.ticks_per_beat / p) 0 t = (t, 0) := by
  have hppos : 0 < p := hb ▸ pow_pos (by norm_num) b
  have htick : 0 < s.ticks_per_beat / p := Nat.div_pos hle hppos
  exact ⟨align_eq_spec s p a b ha hb hle ht, fun t hdvd => quantize_dvd _ htick t hdvd⟩

theorem C1_align_formula_witness :
    ((2 : Nat) ≤ exStream.ticks_per_beat ∧
        ∀ t ∈ exStream.tracks, ∀ m ∈ t, isNote m = true → 0 ≤ m.time) ∧
      (align exStream 2 =
          .ok { exStream with
                tracks := exStream.tracks.map (alignTrackSpec (exStream.ticks_per_beat / 2) 0) } ∧
        ∀ t : Int, ((exStream.ticks_per_beat / 2 : Nat) : Int) ∣ t →
          quantize (exStream.ticks_per_beat / 2) 0 t = (t, 0)) :=
  ⟨⟨by decide, by decide⟩, C1_align_formula exStream 2 2 1 rfl rfl (by decide) (by decide)⟩

/-- Claim C2: on a stream accepted by `align`, the sum of the note-on/note-off
delta-times of each track changes by at most one grid unit `tick` in absolute
value, the carry being reset to `0` at the start of every track. -/
theorem C2_duration_conservation (s : MidiFile) (p a b : Nat)
    (ha : s.ticks_per_beat = 2 ^ a) (hb : p = 2 ^ b) (hle : p ≤ s.ticks_per_beat)
    (ht : ∀ t ∈ s.tracks, ∀ m ∈ t, isNote m = true → 0 ≤ m.time) :
    ∃ s', align s p = .ok s' ∧
      s'.tracks = s.tracks.map (alignTrackSpec (s.ticks_per_beat / p) 0) ∧
      ∀ t ∈ s.tracks,
        |noteTimeSum t - noteTimeSum (alignTrackSpec (s.ticks_per_beat / p) 0 t)| ≤
          ((s.ticks_per_beat / p : Nat) : Int) := by
  have hppos : 0 < p := hb ▸ pow_pos (by norm_num) b
  have htick : 0 < s.ticks_per_beat / p := Nat.div_pos hle hppos
  refine ⟨_, align_eq_spec s p a b ha hb hle ht, rfl, ?_⟩
  intro t _
  have hsum := alignTrackSpec_sum (s.ticks_per_beat / p) t 0
  have hbnd := alignShift_bound (s.ticks_per_beat / p) htick t 0
    (by simpa using Int.natCast_nonneg (s.ticks_per_beat / p))
  have habs := abs_nonneg (alignShift (s.ticks_per_beat / p) 0 t)
  have : noteTimeSum t - noteTimeSum (alignTrackSpec (s.ticks_per_beat / p) 0 t) =
      alignShift (s.ticks_per_beat / p) 0 t := by linarith
  rw [this]
  linarith

theorem C2_duration_conservation_witness :
    ((2 : Nat) ≤ exStream.ticks_per_beat) ∧
      ∃ s', align exStream 2 = .ok s' ∧
        s'.tracks = exStream.tracks.map (alignTrackSpec (exStream.ticks_per_beat / 2) 0) ∧
        ∀ t ∈ exStream.tracks,
          |noteTimeSum t - noteTimeSum (alignTrackSpec (exStream.ticks_per_beat / 2) 0 t)| ≤
            ((exStream.ticks_per_beat / 2 : Nat) : Int) :=
  ⟨by decide, C2_duration_conservation exStream 2 2 1 rfl rfl (by decide) (by decide)⟩

/-- Claim C10: `align` is idempotent on a valid grid: a second application
with the same precision returns the already-aligned stream unchanged,
every note delta-time then being an exact multiple of `tick` and the carry
staying at zero. -/
theorem C10_align_idempotent (s : MidiFile) (p a b : Nat)
    (ha : s.ticks_per_beat = 2 ^ a) (hb : p = 2 ^ b) (hle : p ≤ s.ticks_per_beat)
    (ht : ∀ t ∈ s.tracks, ∀ m ∈ t, isNote m = true → 0 ≤ m.time) :
    ∃ s', align s p = .ok s' ∧ align s' p = .ok s' := by
  have hppos : 0 < p := hb ▸ pow_pos (by norm_num) b
  have htick : 0 < s.ticks_per_beat / p := Nat.div_pos hle hppos
  refine ⟨_, align_eq_spec s p a b ha hb hle ht, ?_⟩
  have ht' : ∀ t ∈ (s.tracks.map (alignTrackSpec (s.ticks_per_beat / p) 0)),
      ∀ m ∈ t, isNote m = true → 0 ≤ m.time := by
    intro t htr m hm hnote
    obtain ⟨t₀, ht₀, rfl⟩ := List.mem_map.mp htr
    exact alignTrackSpec_nonneg _ htick t₀ 0 (ht t₀ ht₀)
      (by simpa using Int.natCast_nonneg (s.ticks_per_beat / p)) m hm hnote
  have h2 := align_eq_spec { s with tracks := s.tracks.map (alignTrackSpec (s.ticks_per_beat / p) 0) }
    p a b ha hb hle ht'
  rw [h2]
  congr 2
  rw [List.map_map]
  refine List.map_congr_left ?_
  intro t _
  exact alignTrackSpec_idem _ htick _ (fun m hm hnote => alignTrackSpec_dvd _ t 0 m hm hnote)

theorem C10_align_idempotent_witness :
    ((2 : Nat) ≤ exStream.ticks_per_beat) ∧
      ∃ s', align exStream 2 = .ok s' ∧ align s' 2 = .ok s' :=
  ⟨by decide, C10_align_idempotent exStream 2 2 1 rfl rfl (by decide) (by decide)⟩

theorem alignTrack_tick_zero :
    ∀ (l : List Message) (shift : Int),
      alignTrack 0 shift l =
        if l.any (fun m => isNote m) then .error .zeroDivisionError else .ok l := by
  intro l
  induction l with
  | nil => intro shift; simp [alignTrack]
  | cons m ms ih =>
    intro shift
    cases hn : isNote m with
    | true =>
      rw [alignTrack, if_pos hn, if_pos rfl, List.any_cons, hn]
      simp
    | false =>
      rw [alignTrack, if_neg (by simp [hn]), ih shift, List.any_cons, hn, Bool.false_or]
      by_cases ha : ms.any (fun m => isNote m) = true
      · rw [if_pos ha, if_pos ha]
      · rw [if_neg ha, if_neg ha]

theorem exceptMap_alignTrack_zero :
    ∀ ts : List (List Message),
      exceptMap (alignTrack 0 0) ts =
        if ts.any (fun t => t.any (fun m => isNote m)) then .error .zeroDivisionError
        else .ok ts := by
  intro ts
  induction ts with
  | nil => simp [exceptMap]
  | cons t ts ih =>
    rw [exceptMap, alignTrack_tick_zero t 0, List.any_cons]
    by_cases h1 : t.any (fun m => isNote m) = true
    · rw [if_pos h1, h1, Bool.true_or, if_pos rfl]
    · have h1' : t.any (fun m => isNote m) = false := by
        revert h1; cases t.any (fun m => isNote m) <;> simp
      rw [if_neg h1, ih, h1', Bool.false_or]
      by_cases h2 : ts.any (fun t => t.any (fun m => isNote m)) = true
      · rw [if_pos h2, if_pos h2]
      · rw [if_neg h2, if_neg h2]

/-- Claim C4 (amended): with `pulses_per_beat` and `precision` powers of two
but `precision` exceeding `pulses_per_beat` (grid unit `tick = 0`), `align`
does not reject the grid: it raises `ZeroDivisionError` on the first
note-on/note-off message (from `shift % 0`), and returns the stream
unchanged when no track contains a note message. -/
theorem C4_tick_zero_behavior (s : MidiFile) (p a b : Nat)
    (ha : s.ticks_per_beat = 2 ^ a) (hb : p = 2 ^ b) (hgt : s.ticks_per_beat < p) :
    align s p =
      if s.tracks.any (fun t => t.any (fun m => isNote m)) then
        .error .zeroDivisionError
      else .ok s := by
  have c1 : popcount s.ticks_per_beat = 1 := ha ▸ popcount_two_pow a
  have c2 : popcount p = 1 := hb ▸ popcount_two_pow b
  have h0 : s.ticks_per_beat / p = 0 := Nat.div_eq_of_lt hgt
  rw [align, if_neg (by omega), if_neg (by omega), h0, exceptMap_alignTrack_zero]
  by_cases h : s.tracks.any (fun t => t.any (fun m => isNote m)) = true
  · rw [if_pos h, if_pos h]
  · rw [if_neg h, if_neg h]

theorem C4_tick_zero_behavior_witness :
    (exStream.ticks_per_beat < 8) ∧
      align exStream 8 =
        (if exStream.tracks.any (fun t => t.any (fun m => isNote m)) then
          .error .zeroDivisionError
        else .ok exStream) :=
  ⟨by decide, C4_tick_zero_behavior exStream 8 2 3 rfl rfl (by decide)⟩

/-- Claim C4 is false as stated: with `ticks_per_beat = 4` and
`precision = 8` (both powers of two, `tick = 0`), `align` returns the
stream untouched when no note message exists — it does not fail at all —
and on a stream holding a note message it fails with `ZeroDivisionError`,
not with the grid `ValueError`. -/
theorem C4_no_invalid_grid_error :
    align ⟨4, [[⟨.other, 3, 0, 0⟩]]⟩ 8 = .ok ⟨4, [[⟨.other, 3, 0, 0⟩]]⟩ ∧
      align exStream 8 = .error .zeroDivisionError ∧
      PyError.zeroDivisionError ≠ PyError.valueError :=
  ⟨rfl, rfl, by decide⟩

theorem popcountGo_fuel_irrel : ∀ n fuel fuel' : Nat, n ≤ fuel → n ≤ fuel' →
    popcountGo fuel n = popcountGo fuel' n := by
  intro n
  induction n using Nat.strong_induction_on with
  | _ n ih =>
    intro fuel fuel' hf hf'
    cases n with
    | zero => cases fuel <;> cases fuel' <;> rfl
    | succ m =>
      obtain ⟨f, rfl⟩ : ∃ f, fuel = f + 1 := ⟨fuel - 1, by omega⟩
      obtain ⟨f', rfl⟩ : ∃ f', fuel' = f' + 1 := ⟨fuel' - 1, by omega⟩
      show popcountGo f ((m + 1) / 2) + (m + 1) % 2 =
        popcountGo f' ((m + 1) / 2) + (m + 1) % 2
      rw [ih ((m + 1) / 2) (by omega) f f' (by omega) (by omega)]

/-- The defining recursion of `bin(n).count('1')`, freed from the fuel. -/
theorem popcount_rec (n : Nat) (h : 0 < n) : popcount n = popcount (n / 2) + n % 2 := by
  obtain ⟨m, rfl⟩ : ∃ m, n = m + 1 := ⟨n - 1, by omega⟩
  show popcountGo m ((m + 1) / 2) + (m + 1) % 2 = popcount ((m + 1) / 2) + (m + 1) % 2
  rw [popcountGo_fuel_irrel ((m + 1) / 2) m ((m + 1) / 2) (by omega) le_rfl]
  rfl

theorem popcount_pos : ∀ n : Nat, 0 < n → 0 < popcount n := by
  intro n
  induction n using Nat.strong_induction_on with
  | _ n ih =>
    intro h
    rw [popcount_rec n h]
    by_cases h2 : n % 2 = 1
    · omega
    · have hpos : 0 < n / 2 := by omega
      have := ih (n / 2) (by omega) hpos
      omega

/-- A number whose binary representation holds exactly one `1` is a power
of two: the converse direction of the source's power-of-two check. -/
theorem popcount_eq_one_pow2 : ∀ n : Nat, popcount n = 1 → ∃ k, n = 2 ^ k := by
  intro n
  induction n using Nat.strong_induction_on with
  | _ n ih =>
    intro h1
    by_cases h0 : n = 0
    · rw [h0] at h1
      have hz : popcount 0 = 0 := rfl
      omega
    · have hpos : 0 < n := by omega
      rw [popcount_rec n hpos] at h1
      by_cases h2 : n % 2 = 1
      · have hz : popcount (n / 2) = 0 := by omega
        have hhalf : n / 2 = 0 := by
          by_contra hc
          have := popcount_pos (n / 2) (by omega)
          omega
        exact ⟨0, by omega⟩
      · have hh : popcount (n / 2) = 1 := by omega
        obtain ⟨k, hk⟩ := ih (n / 2) (by omega) hh
        refine ⟨k + 1, ?_⟩
        rw [pow_succ]
        omega

theorem align_valueError_of_popcount (s : MidiFile) (p : Nat)
    (h : popcount s.ticks_per_beat ≠ 1 ∨ popcount p ≠ 1) :
    align s p = .error .valueError := by
  rcases h with h | h
  · rw [align, if_pos h]
  · rw [align]
    by_cases c1 : popcount s.ticks_per_beat ≠ 1
    · rw [if_pos c1]
    · rw [if_neg c1, if_pos h]

theorem three_not_pow : ∀ b : Nat, (3 : Nat) ≠ 2 ^ b := by
  intro b h
  cases b with
  | zero => exact absurd h (by decide)
  | succ b =>
    cases b with
    | zero => exact absurd h (by decide)
    | succ b =>
      have h1 : 0 < 2 ^ b := pow_pos (by norm_num) b
      have h4 : 2 ^ (b + 1 + 1) = 2 ^ b * 4 := by
        rw [pow_succ, pow_succ]
        ring
      omega

/-- Claim C7: `align` fails with the grid `ValueError` whenever
`ticks_per_beat` is not a power of two or the precision is not a power of
two (the checks precede any processing, so the error is returned before
any message is touched); in particular for precision `3` on every stream,
and on every stream with `ticks_per_beat = 6`. -/
theorem C7_power_of_two_rejection (s : MidiFile) (p : Nat)
    (h : (∀ a : Nat, s.ticks_per_beat ≠ 2 ^ a) ∨ ∀ b : Nat, p ≠ 2 ^ b) :
    align s p = .error .valueError ∧
      (∀ s' : MidiFile, align s' 3 = .error .valueError) ∧
      ∀ (s' : MidiFile) (p' : Nat), s'.ticks_per_beat = 6 →
        align s' p' = .error .valueError := by
  refine ⟨?_, fun s' => align_valueError_of_popcount s' 3 (Or.inr (by decide)),
    fun s' p' h6 => align_valueError_of_popcount s' p' (Or.inl (by rw [h6]; decide))⟩
  rcases h with h | h
  · refine align_valueError_of_popcount s p (Or.inl fun hc => ?_)
    obtain ⟨a, ha⟩ := popcount_eq_one_pow2 s.ticks_per_beat hc
    exact h a ha
  · refine align_valueError_of_popcount s p (Or.inr fun hc => ?_)
    obtain ⟨b, hb⟩ := popcount_eq_one_pow2 p hc
    exact h b hb

theorem C7_power_of_two_rejection_witness :
    ((∀ a : Nat, exStream.ticks_per_beat ≠ 2 ^ a) ∨ ∀ b : Nat, (3 : Nat) ≠ 2 ^ b) ∧
      align exStream 3 = .error .valueError ∧
      (∀ s' : MidiFile, align s' 3 = .error .valueError) ∧
      ∀ (s' : MidiFile) (p' : Nat), s'.ticks_per_beat = 6 →
        align s' p' = .error .valueError :=
  ⟨Or.inr three_not_pow, C7_power_of_two_rejection exStream 3 (Or.inr three_not_pow)⟩

/-- The ascending `while` loop of the pitch strategies:
`while note < 127 and note not in notes: note += 1`, with explicit fuel
(each iteration increases the pitch, so `(127 - p).toNat` iterations
always suffice; once `p ≥ 127` the condition is false regardless). -/
def upGo : Nat → List Int → Int → Int
  | 0, _, p => p
  | fuel + 1, notes, p => if p < 127 ∧ p ∉ notes then upGo fuel notes (p + 1) else p

/-- `while note < 127 and note not in notes: note += 1`. -/
def upLoop (notes : List Int) (p : Int) : Int := upGo (127 - p).toNat notes p

/-- The descending `while` loop of the pitch strategies:
`while note > 0 and note not in notes: note -= 1`, with explicit fuel. -/
def downGo : Nat → List Int → Int → Int
  | 0, _, p => p
  | fuel + 1, notes, p => if 0 < p ∧ p ∉ notes then downGo fuel notes (p - 1) else p

/-- `while note > 0 and note not in notes: note -= 1`. -/
def downLoop (notes : List Int) (p : Int) : Int := downGo p.toNat notes p

/-- The pitch `shift_up` leaves on one note: raise until in key (or 127),
then lower until in key (or 0). -/
def shiftUpPitch (notes : List Int) (p : Int) : Int := downLoop notes (upLoop notes p)

/-- The pitch `shift_down` leaves on one note: lower until in key (or 0),
then raise until in key (or 127). -/
def shiftDownPitch (notes : List Int) (p : Int) : Int := upLoop notes (downLoop notes p)

/-- Python `min(notes, key=lambda x: abs(x - p))` once a first candidate
`best` is in hand: scan left to right, replacing the best candidate only on
a strictly smaller distance (so the earliest minimiser wins). -/
def minByDist (p : Int) : Int → List Int → Int
  | best, [] => best
  | best, x :: xs => if |x - p| < |best - p| then minByDist p x xs else minByDist p best xs

/-- `shift_up(track, notes)` from the source. -/
def shift_up (track : List Message) (notes : List Int) : Except PyError (List Message) :=
  .ok (track.map fun m => if isNote m then { m with note := shiftUpPitch notes m.note } else m)

/-- `shift_down(track, notes)` from the source. -/
def shift_down (track : List Message) (notes : List Int) : Except PyError (List Message) :=
  .ok (track.map fun m => if isNote m then { m with note := shiftDownPitch notes m.note } else m)

/-- `shift_nearest(track, notes)` from the source: each note message's
pitch becomes the allowed pitch of least absolute distance. Python `min`
on an empty collection raises `ValueError` — that happens at the first
note message (before it is assigned), so a track without note messages
passes through untouched. -/
def shift_nearest (track : List Message) (notes : List Int) : Except PyError (List Message) :=
  match notes with
  | [] => if track.any (fun m => isNote m) then .error .valueError else .ok track
  | n :: ns =>
    .ok (track.map fun m => if isNote m then { m with note := minByDist m.note n ns } else m)

/-- `correct_pitch(source, key, strategy)` from the source, the external
key-membership resolver abstracted away: `notes` is the flattened list of
allowed pitches the source collects from `key` before looping over the
tracks. -/
def correct_pitch (source : MidiFile) (notes : List Int)
    (strategy : List Message → List Int → Except PyError (List Message)) :
    Except PyError MidiFile :=
  match exceptMap (fun t => strategy t notes) source.tracks with
  | .error e => .error e
  | .ok ts => .ok { source with tracks := ts }

example : shiftUpPitch [0, 4, 7] 2 = 4 := by decide
example : shiftDownPitch [0, 4, 7] 2 = 0 := by decide
example : minByDist 2 0 [4, 7] = 0 := by decide
example : shiftUpPitch [0] 126 = 0 := by decide
example : shiftUpPitch [] 60 = 0 := by decide
example : shiftDownPitch [] 60 = 127 := by decide
example : upLoop [0, 4, 7] 126 = 127 := by decide
example : minByDist 2 4 [0] = 4 := by decide

theorem upGo_ge : ∀ (fuel : Nat) (notes : List Int) (p : Int), p ≤ upGo fuel notes p := by
  intro fuel
  induction fuel with
  | zero => intro notes p; exact le_refl p
  | succ fuel ih =>
    intro notes p
    rw [upGo]
    by_cases hc : p < 127 ∧ p ∉ notes
    · rw [if_pos hc]; linarith [ih notes (p + 1)]
    · rw [if_neg hc]

theorem upGo_mem_or : ∀ (fuel : Nat) (notes : List Int) (p : Int),
    (127 - p).toNat ≤ fuel → p ≤ 127 →
    upGo fuel notes p = 127 ∨ upGo fuel notes p ∈ notes := by
  intro fuel
  induction fuel with
  | zero =>
    intro notes p hfuel hp
    left
    have : p = 127 := by omega
    simpa [upGo] using this
  | succ fuel ih =>
    intro notes p hfuel hp
    rw [upGo]
    by_cases hc : p < 127 ∧ p ∉ notes
    · rw [if_pos hc]
      exact ih notes (p + 1) (by omega) (by omega)
    · rw [if_neg hc]
      push_neg at hc
      by_cases hm : p ∈ notes
      · exact Or.inr hm
      · exact Or.inl (by have h2 : ¬ _ := fun hlt => hm (hc hlt); omega)

theorem upGo_min : ∀ (fuel : Nat) (notes : List Int) (p : Int),
    ∀ x ∈ notes, p ≤ x → upGo fuel notes p ≤ x := by
  intro fuel
  induction fuel with
  | zero => intro notes p x _ hpx; exact hpx
  | succ fuel ih =>
    intro notes p x hx hpx
    rw [upGo]
    by_cases hc : p < 127 ∧ p ∉ notes
    · rw [if_pos hc]
      have hne : x ≠ p := fun h => hc.2 (h ▸ hx)
      exact ih notes (p + 1) x hx (by omega)
    · rw [if_neg hc]; exact hpx

theorem upGo_all_below : ∀ (fuel : Nat) (notes : List Int) (p : Int),
    (127 - p).toNat ≤ fuel → p ≤ 127 → (∀ x ∈ notes, ¬(p ≤ x ∧ x ≤ 127)) →
    upGo fuel notes p = 127 := by
  intro fuel
  induction fuel with
  | zero =>
    intro notes p hfuel hp _
    have : p = 127 := by omega
    simpa [upGo] using this
  | succ fuel ih =>
    intro notes p hfuel hp h
    rw [upGo]
    by_cases hc : p < 127 ∧ p ∉ notes
    · rw [if_pos hc]
      exact ih notes (p + 1) (by omega) (by omega)
        (fun x hx hcon => h x hx ⟨by omega, hcon.2⟩)
    · rw [if_neg hc]
      push_neg at hc
      by_cases hm : p ∈ notes
      · exact absurd ⟨le_refl p, hp⟩ (h p hm)
      · have h2 : ¬ _ := fun hlt => hm (hc hlt); omega

theorem downGo_le : ∀ (fuel : Nat) (notes : List Int) (p : Int), downGo fuel notes p ≤ p := by
  intro fuel
  induction fuel with
  | zero => intro notes p; exact le_refl p
  | succ fuel ih =>
    intro notes p
    rw [downGo]
    by_cases hc : 0 < p ∧ p ∉ notes
    · rw [if_pos hc]; linarith [ih notes (p - 1)]
    · rw [if_neg hc]

theorem downGo_mem_or : ∀ (fuel : Nat) (notes : List Int) (p : Int),
    p.toNat ≤ fuel → 0 ≤ p →
    downGo fuel notes p = 0 ∨ downGo fuel notes p ∈ notes := by
  intro fuel
  induction fuel with
  | zero =>
    intro notes p hfuel hp
    left
    have : p = 0 := by omega
    simpa [downGo] using this
  | succ fuel ih =>
    intro notes p hfuel hp
    rw [downGo]
    by_cases hc : 0 < p ∧ p ∉ notes
    · rw [if_pos hc]
      exact ih notes (p - 1) (by omega) (by omega)
    · rw [if_neg hc]
      push_neg at hc
      by_cases hm : p ∈ notes
      · exact Or.inr hm
      · exact Or.inl (by have h2 : ¬ _ := fun hlt => hm (hc hlt); omega)

theorem downGo_max : ∀ (fuel : Nat) (notes : List Int) (p : Int),
    ∀ x ∈ notes, x ≤ p → x ≤ downGo fuel notes p := by
  intro fuel
  induction fuel with
  | zero => intro notes p x _ hxp; exact hxp
  | succ fuel ih =>
    intro notes p x hx hxp
    rw [downGo]
    by_cases hc : 0 < p ∧ p ∉ notes
    · rw [if_pos hc]
      have hne : x ≠ p := fun h => hc.2 (h ▸ hx)
      exact ih notes (p - 1) x hx (by omega)
    · rw [if_neg hc]; exact hxp

theorem downGo_all_above : ∀ (fuel : Nat) (notes : List Int) (p : Int),
    p.toNat ≤ fuel → 0 ≤ p → (∀ x ∈ notes, ¬(0 ≤ x ∧ x ≤ p)) →
    downGo fuel notes p = 0 := by
  intro fuel
  induction fuel with
  | zero =>
    intro notes p hfuel hp _
    have : p = 0 := by omega
    simpa [downGo] using this
  | succ fuel ih =>
    intro notes p hfuel hp h
    rw [downGo]
    by_cases hc : 0 < p ∧ p ∉ notes
    · rw [if_pos hc]
      exact ih notes (p - 1) (by omega) (by omega)
        (fun x hx hcon => h x hx ⟨hcon.1, by omega⟩)
    · rw [if_neg hc]
      push_neg at hc
      by_cases hm : p ∈ notes
      · exact absurd ⟨hp, le_refl p⟩ (h p hm)
      · have h2 : ¬ _ := fun hlt => hm (hc hlt); omega

theorem upLoop_of_mem (notes : List Int) (p : Int) (h : p ∈ notes) : upLoop notes p = p := by
  unfold upLoop
  cases (127 - p).toNat with
  | zero => rfl
  | succ fuel => rw [upGo, if_neg (fun hc => hc.2 h)]

theorem downLoop_of_mem (notes : List Int) (p : Int) (h : p ∈ notes) : downLoop notes p = p := by
  unfold downLoop
  cases p.toNat with
  | zero => rfl
  | succ fuel => rw [downGo, if_neg (fun hc => hc.2 h)]

theorem upLoop_ge (notes : List Int) (p : Int) : p ≤ upLoop notes p :=
  upGo_ge _ notes p

theorem upLoop_mem_or (notes : List Int) (p : Int) (hp : p ≤ 127) :
    upLoop notes p = 127 ∨ upLoop notes p ∈ notes :=
  upGo_mem_or _ notes p le_rfl hp

theorem upLoop_min (notes : List Int) (p : Int) : ∀ x ∈ notes, p ≤ x → upLoop notes p ≤ x :=
  upGo_min _ notes p

theorem upLoop_all_below (notes : List Int) (p : Int) (hp : p ≤ 127)
    (h : ∀ x ∈ notes, ¬(p ≤ x ∧ x ≤ 127)) : upLoop notes p = 127 :=
  upGo_all_below _ notes p le_rfl hp h

theorem downLoop_le (notes : List Int) (p : Int) : downLoop notes p ≤ p :=
  downGo_le _ notes p

theorem downLoop_mem_or (notes : List Int) (p : Int) (hp : 0 ≤ p) :
    downLoop notes p = 0 ∨ downLoop notes p ∈ notes :=
  downGo_mem_or _ notes p le_rfl hp

theorem downLoop_max (notes : List Int) (p : Int) : ∀ x ∈ notes, x ≤ p → x ≤ downLoop notes p :=
  downGo_max _ notes p

theorem downLoop_all_above (notes : List Int) (p : Int) (hp : 0 ≤ p)
    (h : ∀ x ∈ notes, ¬(0 ≤ x ∧ x ≤ p)) : downLoop notes p = 0 :=
  downGo_all_above _ notes p le_rfl hp h

/-- `shift_up` on one pitch: the least allowed pitch at or above `p` when
one exists; otherwise (everything allowed lies below `p`) the greatest
allowed pitch, which is below `p`. -/
theorem shiftUpPitch_spec (notes : List Int) (p : Int) (hne : notes ≠ [])
    (hr : ∀ x ∈ notes, 0 ≤ x ∧ x ≤ 127) (hp1 : p ≤ 127) :
    ((∃ x ∈ notes, p ≤ x) →
        shiftUpPitch notes p ∈ notes ∧ p ≤ shiftUpPitch notes p ∧
          ∀ x ∈ notes, p ≤ x → shiftUpPitch notes p ≤ x) ∧
      ((∀ x ∈ notes, x < p) →
        shiftUpPitch notes p ∈ notes ∧ shiftUpPitch notes p < p ∧
          ∀ x ∈ notes, x ≤ shiftUpPitch notes p) := by
  constructor
  · rintro ⟨x0, hx0, hpx0⟩
    by_cases hum : upLoop notes p ∈ notes
    · have hres : shiftUpPitch notes p = upLoop notes p := by
        unfold shiftUpPitch
        rw [downLoop_of_mem notes _ hum]
      rw [hres]
      exact ⟨hum, upLoop_ge notes p, upLoop_min notes p⟩
    · exfalso
      rcases upLoop_mem_or notes p hp1 with h127 | hmem
      · have hle : upLoop notes p ≤ x0 := upLoop_min notes p x0 hx0 hpx0
        have hx127 : x0 = 127 := by have := (hr x0 hx0).2; omega
        exact hum (by rw [h127, ← hx127]; exact hx0)
      · exact hum hmem
  · intro hall
    have hup : upLoop notes p = 127 := by
      refine upLoop_all_below notes p hp1 ?_
      intro x hx hcon
      exact absurd hcon.1 (by have := hall x hx; omega)
    have h0 : (0 : Int) ≤ 127 := by norm_num
    unfold shiftUpPitch
    rw [hup]
    by_cases hdm : downLoop notes 127 ∈ notes
    · refine ⟨hdm, by have := hall _ hdm; omega, ?_⟩
      intro x hx
      exact downLoop_max notes 127 x hx (hr x hx).2
    · exfalso
      rcases downLoop_mem_or notes 127 h0 with hz | hmem
      · obtain ⟨y, hy⟩ := List.exists_mem_of_ne_nil notes hne
        have hyd : y ≤ downLoop notes 127 := downLoop_max notes 127 y hy (hr y hy).2
        have hy0 : y = 0 := by have := (hr y hy).1; omega
        exact hdm (by rw [hz, ← hy0]; exact hy)
      · exact hdm hmem

/-- `shift_down` on one pitch: the greatest allowed pitch at or below `p`
when one exists; otherwise (everything allowed lies above `p`) the least
allowed pitch, which is above `p`. -/
theorem shiftDownPitch_spec (notes : List Int) (p : Int) (hne : notes ≠ [])
    (hr : ∀ x ∈ notes, 0 ≤ x ∧ x ≤ 127) (hp0 : 0 ≤ p) :
    ((∃ x ∈ notes, x ≤ p) →
        shiftDownPitch notes p ∈ notes ∧ shiftDownPitch notes p ≤ p ∧
          ∀ x ∈ notes, x ≤ p → x ≤ shiftDownPitch notes p) ∧
      ((∀ x ∈ notes, p < x) →
        shiftDownPitch notes p ∈ notes ∧ p < shiftDownPitch notes p ∧
          ∀ x ∈ notes, shiftDownPitch notes p ≤ x) := by
  constructor
  · rintro ⟨x0, hx0, hpx0⟩
    by_cases hdm : downLoop notes p ∈ notes
    · have hres : shiftDownPitch notes p = downLoop notes p := by
        unfold shiftDownPitch
        rw [upLoop_of_mem notes _ hdm]
      rw [hres]
      exact ⟨hdm, downLoop_le notes p, downLoop_max notes p⟩
    · exfalso
      rcases downLoop_mem_or notes p hp0 with hz | hmem
      · have hle : x0 ≤ downLoop notes p := downLoop_max notes p x0 hx0 hpx0
        have hx0z : x0 = 0 := by have := (hr x0 hx0).1; omega
        exact hdm (by rw [hz, ← hx0z]; exact hx0)
      · exact hdm hmem
  · intro hall
    have hdn : downLoop notes p = 0 := by
      refine downLoop_all_above notes p hp0 ?_
      intro x hx hcon
      exact absurd hcon.2 (by have := hall x hx; omega)
    have h127 : (0 : Int) ≤ 127 := by norm_num
    unfold shiftDownPitch
    rw [hdn]
    by_cases hum : upLoop notes 0 ∈ notes
    · refine ⟨hum, by have := hall _ hum; omega, ?_⟩
      intro x hx
      exact upLoop_min notes 0 x hx (hr x hx).1
    · exfalso
      rcases upLoop_mem_or notes 0 h127 with h7 | hmem
      · obtain ⟨y, hy⟩ := List.exists_mem_of_ne_nil notes hne
        have hyd : upLoop notes 0 ≤ y := upLoop_min notes 0 y hy (hr y hy).1
        have hy7 : y = 127 := by have := (hr y hy).2; omega
        exact hum (by rw [h7, ← hy7]; exact hy)
      · exact hum hmem

theorem shiftUpPitch_mem (notes : List Int) (p : Int) (hne : notes ≠ [])
    (hr : ∀ x ∈ notes, 0 ≤ x ∧ x ≤ 127) (hp1 : p ≤ 127) : shiftUpPitch notes p ∈ notes := by
  by_cases h : ∃ x ∈ notes, p ≤ x
  · exact ((shiftUpPitch_spec notes p hne hr hp1).1 h).1
  · push_neg at h
    exact ((shiftUpPitch_spec notes p hne hr hp1).2 h).1

theorem shiftDownPitch_mem (notes : List Int) (p : Int) (hne : notes ≠ [])
    (hr : ∀ x ∈ notes, 0 ≤ x ∧ x ≤ 127) (hp0 : 0 ≤ p) : shiftDownPitch notes p ∈ notes := by
  by_cases h : ∃ x ∈ notes, x ≤ p
  · exact ((shiftDownPitch_spec notes p hne hr hp0).1 h).1
  · push_neg at h
    exact ((shiftDownPitch_spec notes p hne hr hp0).2 h).1

theorem minByDist_mem (p : Int) : ∀ (xs : List Int) (best : Int),
    minByDist p best xs ∈ best :: xs := by
  intro xs
  induction xs with
  | nil => intro best; simp [minByDist]
  | cons x xs ih =>
    intro best
    rw [minByDist]
    by_cases h : |x - p| < |best - p|
    · rw [if_pos h]
      rcases List.mem_cons.mp (ih x) with h1 | h1 <;> simp [h1]
    · rw [if_neg h]
      rcases List.mem_cons.mp (ih best) with h1 | h1 <;> simp [h1]

theorem minByDist_le (p : Int) : ∀ (xs : List Int) (best : Int),
    ∀ y ∈ best :: xs, |minByDist p best xs - p| ≤ |y - p| := by
  intro xs
  induction xs with
  | nil =>
    intro best y hy
    rcases List.mem_cons.mp hy with rfl | h1
    · exact le_refl _
    · simp at h1
  | cons x xs ih =>
    intro best y hy
    rw [minByDist]
    by_cases h : |x - p| < |best - p|
    · rw [if_pos h]
      rcases List.mem_cons.mp hy with hyb | h1
      · rw [hyb]
        exact le_trans (ih x x (by simp)) h.le
      · exact ih x y h1
    · rw [if_neg h]
      rcases List.mem_cons.mp hy with hyb | h1
      · rw [hyb]
        exact ih best best (by simp)
      · rcases List.mem_cons.mp h1 with hyx | h2
        · rw [hyx]
          exact le_trans (ih best best (by simp)) (not_lt.mp h)
        · exact ih best y (by simp [h2])

theorem minByDist_first (p : Int) : ∀ (xs : List Int) (best : Int),
    ∃ l₁ l₂, best :: xs = l₁ ++ minByDist p best xs :: l₂ ∧
      ∀ y ∈ l₁, |minByDist p best xs - p| < |y - p| := by
  intro xs
  induction xs with
  | nil => intro best; exact ⟨[], [], rfl, by simp⟩
  | cons x xs ih =>
    intro best
    rw [minByDist]
    by_cases h : |x - p| < |best - p|
    · rw [if_pos h]
      obtain ⟨l₁, l₂, heq, hlt⟩ := ih x
      refine ⟨best :: l₁, l₂, by rw [List.cons_append, ← heq], ?_⟩
      intro y hy
      rcases List.mem_cons.mp hy with rfl | h1
      · exact lt_of_le_of_lt (minByDist_le p xs x x (by simp)) h
      · exact hlt y h1
    · rw [if_neg h]
      obtain ⟨l₁, l₂, heq, hlt⟩ := ih best
      cases l₁ with
      | nil =>
        rw [List.nil_append] at heq
        injection heq with h1 h2
        exact ⟨[], x :: xs, by rw [List.nil_append, ← h1], by simp⟩
      | cons b l₁' =>
        rw [List.cons_append, List.cons.injEq] at heq
        obtain ⟨rfl, heq'⟩ := heq
        refine ⟨best :: x :: l₁', l₂, ?_, ?_⟩
        · rw [List.cons_append, List.cons_append, ← heq']
        · intro y hy
          have hbest : |minByDist p best xs - p| < |best - p| := hlt best (by simp)
          rcases List.mem_cons.mp hy with rfl | h1
          · exact hbest
          · rcases List.mem_cons.mp h1 with rfl | h2
            · exact lt_of_lt_of_le hbest (not_lt.mp h)
            · exact hlt y (by simp [h2])

theorem forall₂_map_self {α : Type} (P : α → α → Prop) (g : α → α) (h : ∀ a, P a (g a)) :
    ∀ l : List α, List.Forall₂ P l (l.map g) := by
  intro l
  induction l with
  | nil => exact .nil
  | cons a as ih => exact .cons (h a) ih

theorem exceptMap_forall₂ {α β : Type} (f : α → Except PyError β) :
    ∀ (l : List α) (l' : List β), exceptMap f l = .ok l' →
      List.Forall₂ (fun a b => f a = .ok b) l l' := by
  intro l
  induction l with
  | nil =>
    intro l' h
    rw [exceptMap] at h
    injection h with h
    rw [← h]
    exact .nil
  | cons a as ih =>
    intro l' h
    rw [exceptMap] at h
    cases hfa : f a with
    | error e => rw [hfa] at h; cases h
    | ok b =>
      rw [hfa] at h
      cases hem : exceptMap f as with
      | error e => rw [hem] at h; cases h
      | ok bs =>
        rw [hem] at h
        injection h with h
        rw [← h]
        exact .cons hfa (ih bs hem)

theorem correct_pitch_map (s : MidiFile) (notes : List Int)
    (strategy : List Message → List Int → Except PyError (List Message)) (g : Message → Message)
    (h : ∀ t, strategy t notes = .ok (t.map g)) :
    correct_pitch s notes strategy = .ok { s with tracks := s.tracks.map (List.map g) } := by
  unfold correct_pitch
  rw [exceptMap_ok_of_all _ (List.map g) _ fun t _ => h t]

theorem align_ok_inv (s : MidiFile) (p : Nat) (s' : MidiFile) (h : align s p = .ok s') :
    exceptMap (alignTrack (s.ticks_per_beat / p) 0) s.tracks = .ok s'.tracks := by
  rw [align] at h
  by_cases c1 : popcount s.ticks_per_beat ≠ 1
  · rw [if_pos c1] at h; cases h
  · rw [if_neg c1] at h
    by_cases c2 : popcount p ≠ 1
    · rw [if_pos c2] at h; cases h
    · rw [if_neg c2] at h
      cases hem : exceptMap (alignTrack (s.ticks_per_beat / p) 0) s.tracks with
      | error e => rw [hem] at h; cases h
      | ok ts =>
        rw [hem] at h
        injection h with h
        rw [← h]

theorem correct_pitch_ok_inv (s : MidiFile) (notes : List Int)
    (strategy : List Message → List Int → Except PyError (List Message)) (s' : MidiFile)
    (h : correct_pitch s notes strategy = .ok s') :
    exceptMap (fun t => strategy t notes) s.tracks = .ok s'.tracks := by
  unfold correct_pitch at h
  cases hem : exceptMap (fun t => strategy t notes) s.tracks with
  | error e => rw [hem] at h; cases h
  | ok ts =>
    rw [hem] at h
    injection h with h
    rw [← h]

theorem alignTrack_frame (tick : Nat) : ∀ (l : List Message) (shift : Int) (l' : List Message),
    alignTrack tick shift l = .ok l' →
    List.Forall₂ (fun m m' => m'.type = m.type ∧ m'.note = m.note ∧ m'.velocity = m.velocity ∧
      (isNote m = false → m' = m)) l l' := by
  intro l
  induction l with
  | nil =>
    intro shift l' h
    rw [alignTrack] at h
    injection h with h
    rw [← h]
    exact .nil
  | cons m ms ih =>
    intro shift l' h
    rw [alignTrack] at h
    by_cases hn : isNote m = true
    · rw [if_pos hn] at h
      by_cases ht0 : tick = 0
      · rw [if_pos ht0] at h; cases h
      · rw [if_neg ht0] at h
        by_cases hc : m.time + shift % (tick : Int) ≠ 0
        · rw [if_pos hc] at h
          cases hrec : alignTrack tick (quantize tick shift m.time).2 ms with
          | error e => rw [hrec] at h; cases h
          | ok ms' =>
            rw [hrec] at h
            injection h with h
            rw [← h]
            exact .cons ⟨rfl, rfl, rfl, fun hf => by rw [hf] at hn; cases hn⟩ (ih _ ms' hrec)
        · rw [if_neg hc] at h
          cases hrec : alignTrack tick shift ms with
          | error e => rw [hrec] at h; cases h
          | ok ms' =>
            rw [hrec] at h
            injection h with h
            rw [← h]
            exact .cons ⟨rfl, rfl, rfl, fun _ => rfl⟩ (ih _ ms' hrec)
    · rw [if_neg hn] at h
      cases hrec : alignTrack tick shift ms with
      | error e => rw [hrec] at h; cases h
      | ok ms' =>
        rw [hrec] at h
        injection h with h
        rw [← h]
        exact .cons ⟨rfl, rfl, rfl, fun _ => rfl⟩ (ih _ ms' hrec)

theorem upLoop_nil (p : Int) : upLoop [] p = if p < 127 then 127 else p := by
  by_cases h : p < 127
  · rw [if_pos h]
    exact upLoop_all_below [] p (by omega) (by simp)
  · rw [if_neg h]
    unfold upLoop
    cases h2 : (127 - p).toNat with
    | zero => rfl
    | succ f => rw [upGo, if_neg fun hc => h hc.1]

theorem downLoop_nil (p : Int) : downLoop [] p = if 0 < p then 0 else p := by
  by_cases h : 0 < p
  · rw [if_pos h]
    exact downLoop_all_above [] p (by omega) (by simp)
  · rw [if_neg h]
    unfold downLoop
    cases h2 : p.toNat with
    | zero => rfl
    | succ f => rw [downGo, if_neg fun hc => h hc.1]

theorem shiftUpPitch_nil (p : Int) : shiftUpPitch [] p = 0 := by
  unfold shiftUpPitch
  rw [upLoop_nil]
  by_cases h : p < 127
  · rw [if_pos h, downLoop_nil, if_pos (by norm_num)]
  · rw [if_neg h, downLoop_nil, if_pos (by omega)]

theorem shiftDownPitch_nil (p : Int) : shiftDownPitch [] p = 127 := by
  unfold shiftDownPitch
  rw [downLoop_nil]
  by_cases h : 0 < p
  · rw [if_pos h, upLoop_nil, if_pos (by norm_num)]
  · rw [if_neg h, upLoop_nil, if_pos (by omega)]

theorem exceptMap_nearest_nil :
    ∀ ts : List (List Message),
      exceptMap (fun t => shift_nearest t []) ts =
        if ts.any (fun t => t.any fun m => isNote m) then .error .valueError else .ok ts := by
  intro ts
  induction ts with
  | nil => simp [exceptMap]
  | cons t ts ih =>
    rw [exceptMap, shift_nearest, List.any_cons]
    by_cases h1 : t.any (fun m => isNote m) = true
    · rw [if_pos h1, h1, Bool.true_or, if_pos rfl]
    · have h1' : t.any (fun m => isNote m) = false := by
        revert h1; cases t.any (fun m => isNote m) <;> simp
      rw [if_neg h1, ih, h1', Bool.false_or]
      by_cases h2 : ts.any (fun t => t.any fun m => isNote m) = true
      · rw [if_pos h2, if_pos h2]
      · rw [if_neg h2, if_neg h2]

/-- Claim C3: for a non-empty allowed-pitch list inside 0–127 and a stream
whose note pitches lie in 0–127, `correct_pitch` succeeds under each of the
three strategies and leaves every note-on/note-off pitch a member of the
allowed list. -/
theorem C3_pitch_membership (s : MidiFile) (notes : List Int) (hne : notes ≠ [])
    (hr : ∀ x ∈ notes, 0 ≤ x ∧ x ≤ 127)
    (hp : ∀ t ∈ s.tracks, ∀ m ∈ t, isNote m = true → 0 ≤ m.note ∧ m.note ≤ 127) :
    (∃ s₁, correct_pitch s notes shift_up = .ok s₁ ∧
        ∀ t ∈ s₁.tracks, ∀ m ∈ t, isNote m = true → m.note ∈ notes) ∧
      (∃ s₂, correct_pitch s notes shift_down = .ok s₂ ∧
        ∀ t ∈ s₂.tracks, ∀ m ∈ t, isNote m = true → m.note ∈ notes) ∧
      (∃ s₃, correct_pitch s notes shift_nearest = .ok s₃ ∧
        ∀ t ∈ s₃.tracks, ∀ m ∈ t, isNote m = true → m.note ∈ notes) := by
  refine ⟨⟨_, correct_pitch_map s notes shift_up _ fun t => rfl, ?_⟩,
    ⟨_, correct_pitch_map s notes shift_down _ fun t => rfl, ?_⟩, ?_⟩
  · intro t' ht' m' hm' hnote
    obtain ⟨t, ht, rfl⟩ := List.mem_map.mp ht'
    obtain ⟨m, hm, rfl⟩ := List.mem_map.mp hm'
    by_cases hn : isNote m = true
    · rw [if_pos hn]
      exact shiftUpPitch_mem notes m.note hne hr (hp t ht m hm hn).2
    · rw [if_neg hn] at hnote
      exact absurd hnote hn
  · intro t' ht' m' hm' hnote
    obtain ⟨t, ht, rfl⟩ := List.mem_map.mp ht'
    obtain ⟨m, hm, rfl⟩ := List.mem_map.mp hm'
    by_cases hn : isNote m = true
    · rw [if_pos hn]
      exact shiftDownPitch_mem notes m.note hne hr (hp t ht m hm hn).1
    · rw [if_neg hn] at hnote
      exact absurd hnote hn
  · cases hcn : notes with
    | nil => exact absurd hcn hne
    | cons n ns =>
      refine ⟨_, correct_pitch_map s (n :: ns) shift_nearest
        (fun m => if isNote m then { m with note := minByDist m.note n ns } else m)
        fun t => rfl, ?_⟩
      intro t' ht' m' hm' hnote
      obtain ⟨t, ht, rfl⟩ := List.mem_map.mp ht'
      obtain ⟨m, hm, rfl⟩ := List.mem_map.mp hm'
      by_cases hn : isNote m = true
      · rw [if_pos hn]
        exact minByDist_mem m.note ns n
      · rw [if_neg hn] at hnote
        exact absurd hnote hn

theorem C3_pitch_membership_witness :
    (([0, 4, 7] : List Int) ≠ [] ∧
        ∀ x ∈ ([0, 4, 7] : List Int), (0 : Int) ≤ x ∧ x ≤ 127) ∧
      (∃ s₁, correct_pitch exStream [0, 4, 7] shift_up = .ok s₁ ∧
          ∀ t ∈ s₁.tracks, ∀ m ∈ t, isNote m = true → m.note ∈ ([0, 4, 7] : List Int)) ∧
        (∃ s₂, correct_pitch exStream [0, 4, 7] shift_down = .ok s₂ ∧
          ∀ t ∈ s₂.tracks, ∀ m ∈ t, isNote m = true → m.note ∈ ([0, 4, 7] : List Int)) ∧
        (∃ s₃, correct_pitch exStream [0, 4, 7] shift_nearest = .ok s₃ ∧
          ∀ t ∈ s₃.tracks, ∀ m ∈ t, isNote m = true → m.note ∈ ([0, 4, 7] : List Int)) :=
  ⟨⟨by decide, by decide⟩,
    C3_pitch_membership exStream [0, 4, 7] (by decide) (by decide) (by decide)⟩

/-- Claim C5 is false as stated: with the empty allowed-pitch list and the
shift-up strategy, `correct_pitch` raises nothing — it succeeds and rewrites
the note pitch 60 to 0, so an event is mutated and no error of any kind is
surfaced. -/
theorem C5_no_empty_key_error :
    correct_pitch ⟨480, [[⟨.note_on, 0, 60, 100⟩]]⟩ [] shift_up =
        .ok ⟨480, [[⟨.note_on, 0, 0, 100⟩]]⟩ ∧
      ∀ e : PyError,
        correct_pitch ⟨480, [[⟨.note_on, 0, 60, 100⟩]]⟩ [] shift_up ≠ .error e := by
  have h1 : correct_pitch (⟨480, [[⟨.note_on, 0, 60, 100⟩]]⟩ : MidiFile) [] shift_up =
      .ok ⟨480, [[⟨.note_on, 0, 0, 100⟩]]⟩ := rfl
  exact ⟨h1, fun e h => by rw [h1] at h; cases h⟩

/-- Claim C5 (amended): the source never raises an `EmptyKeyError`
(no such check exists). With an empty allowed-pitch list, `correct_pitch`
under shift-up succeeds and drives every note pitch to 0 (the up loop
saturates at 127, the fallback loop at 0), under shift-down it succeeds
and drives every note pitch to 127, and under shift-nearest it fails with
Python's `ValueError` from `min([])` — raised at the first note message,
before that message is mutated — succeeding with the stream unchanged when
no note message exists. -/
theorem C5_empty_key_behavior (s : MidiFile) :
    correct_pitch s [] shift_up =
        .ok { s with tracks := s.tracks.map (List.map fun m =>
          if isNote m then { m with note := 0 } else m) } ∧
      correct_pitch s [] shift_down =
        .ok { s with tracks := s.tracks.map (List.map fun m =>
          if isNote m then { m with note := 127 } else m) } ∧
      correct_pitch s [] shift_nearest =
        (if s.tracks.any (fun t => t.any fun m => isNote m) then .error .valueError
        else .ok s) := by
  refine ⟨?_, ?_, ?_⟩
  · refine correct_pitch_map s [] shift_up _ fun t => ?_
    rw [shift_up]
    congr 1
    refine List.map_congr_left ?_
    intro m _
    by_cases hn : isNote m = true
    · rw [if_pos hn, if_pos hn, shiftUpPitch_nil]
    · rw [if_neg hn, if_neg hn]
  · refine correct_pitch_map s [] shift_down _ fun t => ?_
    rw [shift_down]
    congr 1
    refine List.map_congr_left ?_
    intro m _
    by_cases hn : isNote m = true
    · rw [if_pos hn, if_pos hn, shiftDownPitch_nil]
    · rw [if_neg hn, if_neg hn]
  · unfold correct_pitch
    rw [exceptMap_nearest_nil]
    by_cases h : s.tracks.any (fun t => t.any fun m => isNote m) = true
    · rw [if_pos h, if_pos h]
    · rw [if_neg h, if_neg h]

/-- Claim C6: for a pitch and a non-empty allowed list inside 0–127,
shift-up lands on the least allowed pitch at or above the original, falling
back to the greatest allowed pitch below only when nothing allowed lies at
or above; shift-down symmetrically lands on the greatest allowed pitch at
or below, falling back to the least allowed pitch above. -/
theorem C6_shift_directions (notes : List Int) (p : Int) (hne : notes ≠ [])
    (hr : ∀ x ∈ notes, 0 ≤ x ∧ x ≤ 127) (hp0 : 0 ≤ p) (hp1 : p ≤ 127) :
    ((∃ x ∈ notes, p ≤ x) →
        shiftUpPitch notes p ∈ notes ∧ p ≤ shiftUpPitch notes p ∧
          ∀ x ∈ notes, p ≤ x → shiftUpPitch notes p ≤ x) ∧
      ((∀ x ∈ notes, x < p) →
        shiftUpPitch notes p ∈ notes ∧ shiftUpPitch notes p < p ∧
          ∀ x ∈ notes, x ≤ shiftUpPitch notes p) ∧
      ((∃ x ∈ notes, x ≤ p) →
        shiftDownPitch notes p ∈ notes ∧ shiftDownPitch notes p ≤ p ∧
          ∀ x ∈ notes, x ≤ p → x ≤ shiftDownPitch notes p) ∧
      ((∀ x ∈ notes, p < x) →
        shiftDownPitch notes p ∈ notes ∧ p < shiftDownPitch notes p ∧
          ∀ x ∈ notes, shiftDownPitch notes p ≤ x) ∧
      (∀ track, shift_up track notes = .ok (track.map fun m =>
        if isNote m then { m with note := shiftUpPitch notes m.note } else m)) ∧
      (∀ track, shift_down track notes = .ok (track.map fun m =>
        if isNote m then { m with note := shiftDownPitch notes m.note } else m)) :=
  ⟨(shiftUpPitch_spec notes p hne hr hp1).1, (shiftUpPitch_spec notes p hne hr hp1).2,
    (shiftDownPitch_spec notes p hne hr hp0).1, (shiftDownPitch_spec notes p hne hr hp0).2,
    fun _ => rfl, fun _ => rfl⟩

theorem C6_shift_directions_witness :
    (([0, 4, 7] : List Int) ≠ [] ∧ (0 : Int) ≤ 2 ∧ (2 : Int) ≤ 127) ∧
      ((∃ x ∈ ([0, 4, 7] : List Int), (2 : Int) ≤ x) →
          shiftUpPitch [0, 4, 7] 2 ∈ ([0, 4, 7] : List Int) ∧
            (2 : Int) ≤ shiftUpPitch [0, 4, 7] 2 ∧
            ∀ x ∈ ([0, 4, 7] : List Int), (2 : Int) ≤ x → shiftUpPitch [0, 4, 7] 2 ≤ x) ∧
        ((∀ x ∈ ([0, 4, 7] : List Int), x < (2 : Int)) →
          shiftUpPitch [0, 4, 7] 2 ∈ ([0, 4, 7] : List Int) ∧
            shiftUpPitch [0, 4, 7] 2 < (2 : Int) ∧
            ∀ x ∈ ([0, 4, 7] : List Int), x ≤ shiftUpPitch [0, 4, 7] 2) ∧
        ((∃ x ∈ ([0, 4, 7] : List Int), x ≤ (2 : Int)) →
          shiftDownPitch [0, 4, 7] 2 ∈ ([0, 4, 7] : List Int) ∧
            shiftDownPitch [0, 4, 7] 2 ≤ (2 : Int) ∧
            ∀ x ∈ ([0, 4, 7] : List Int), x ≤ (2 : Int) → x ≤ shiftDownPitch [0, 4, 7] 2) ∧
        ((∀ x ∈ ([0, 4, 7] : List Int), (2 : Int) < x) →
          shiftDownPitch [0, 4, 7] 2 ∈ ([0, 4, 7] : List Int) ∧
            (2 : Int) < shiftDownPitch [0, 4, 7] 2 ∧
            ∀ x ∈ ([0, 4, 7] : List Int), shiftDownPitch [0, 4, 7] 2 ≤ x) ∧
        (∀ track, shift_up track [0, 4, 7] = .ok (track.map fun m =>
          if isNote m then { m with note := shiftUpPitch [0, 4, 7] m.note } else m)) ∧
        (∀ track, shift_down track [0, 4, 7] = .ok (track.map fun m =>
          if isNote m then { m with note := shiftDownPitch [0, 4, 7] m.note } else m)) :=
  ⟨⟨by decide, by decide, by decide⟩,
    C6_shift_directions [0, 4, 7] 2 (by decide) (by decide) (by decide) (by decide)⟩

/-- Claim C8: `shift_nearest` gives every note the allowed pitch of minimal
absolute distance, ties resolved to the candidate appearing earliest in the
allowed list (Python `min` keeps the first minimiser: every earlier
candidate is strictly farther). -/
theorem C8_nearest_minimum (n : Int) (ns : List Int) (q : Int) :
    minByDist q n ns ∈ n :: ns ∧
      (∀ x ∈ n :: ns, |minByDist q n ns - q| ≤ |x - q|) ∧
      (∃ l₁ l₂, n :: ns = l₁ ++ minByDist q n ns :: l₂ ∧
        ∀ y ∈ l₁, |minByDist q n ns - q| < |y - q|) ∧
      ∀ track, shift_nearest track (n :: ns) = .ok (track.map fun m =>
        if isNote m then { m with note := minByDist m.note n ns } else m) :=
  ⟨minByDist_mem q ns n, minByDist_le q ns n, minByDist_first q ns n, fun _ => rfl⟩

theorem shift_up_frame (notes : List Int) (t t' : List Message) (h : shift_up t notes = .ok t') :
    List.Forall₂ (fun m m' => m'.type = m.type ∧ m'.time = m.time ∧ m'.velocity = m.velocity ∧
      (isNote m = false → m' = m)) t t' := by
  injection h with h
  rw [← h]
  refine forall₂_map_self _ _ ?_ t
  intro m
  by_cases hn : isNote m = true
  · rw [if_pos hn]
    exact ⟨rfl, rfl, rfl, fun hf => by rw [hf] at hn; cases hn⟩
  · rw [if_neg hn]
    exact ⟨rfl, rfl, rfl, fun _ => rfl⟩

theorem shift_down_frame (notes : List Int) (t t' : List Message)
    (h : shift_down t notes = .ok t') :
    List.Forall₂ (fun m m' => m'.type = m.type ∧ m'.time = m.time ∧ m'.velocity = m.velocity ∧
      (isNote m = false → m' = m)) t t' := by
  injection h with h
  rw [← h]
  refine forall₂_map_self _ _ ?_ t
  intro m
  by_cases hn : isNote m = true
  · rw [if_pos hn]
    exact ⟨rfl, rfl, rfl, fun hf => by rw [hf] at hn; cases hn⟩
  · rw [if_neg hn]
    exact ⟨rfl, rfl, rfl, fun _ => rfl⟩

theorem shift_nearest_frame (notes : List Int) (t t' : List Message)
    (h : shift_nearest t notes = .ok t') :
    List.Forall₂ (fun m m' => m'.type = m.type ∧ m'.time = m.time ∧ m'.velocity = m.velocity ∧
      (isNote m = false → m' = m)) t t' := by
  cases notes with
  | nil =>
    rw [shift_nearest] at h
    by_cases ha : t.any (fun m => isNote m) = true
    · rw [if_pos ha] at h; cases h
    · rw [if_neg ha] at h
      injection h with h
      rw [← h]
      exact List.forall₂_same.mpr fun x _ => ⟨rfl, rfl, rfl, fun _ => rfl⟩
  | cons n ns =>
    rw [shift_nearest] at h
    injection h with h
    rw [← h]
    refine forall₂_map_self _ _ ?_ t
    intro m
    by_cases hn : isNote m = true
    · rw [if_pos hn]
      exact ⟨rfl, rfl, rfl, fun hf => by rw [hf] at hn; cases hn⟩
    · rw [if_neg hn]
      exact ⟨rfl, rfl, rfl, fun _ => rfl⟩

/-- Claim C9: no transform adds, removes or reorders tracks or messages
(each result is related position-by-position to its input): the grid
aligner changes at most the delta-times of note messages and leaves every
non-note message untouched — never folding one into the carry — the pitch
corrector changes at most the pitch of note messages (delta-time and
velocity intact), and the velocity normalizer changes at most the velocity
of note messages (delta-time and pitch intact). -/
theorem C9_frame_effects (s : MidiFile) (v : Int) (p : Nat) (notes : List Int)
    (sa s1 s2 s3 : MidiFile)
    (ha : align s p = .ok sa)
    (h1 : correct_pitch s notes shift_up = .ok s1)
    (h2 : correct_pitch s notes shift_down = .ok s2)
    (h3 : correct_pitch s notes shift_nearest = .ok s3) :
    List.Forall₂ (List.Forall₂ fun m m' => m'.type = m.type ∧ m'.time = m.time ∧
        m'.note = m.note ∧ (isNote m = false → m' = m)) s.tracks (normalize s v).tracks ∧
      List.Forall₂ (List.Forall₂ fun m m' => m'.type = m.type ∧ m'.note = m.note ∧
        m'.velocity = m.velocity ∧ (isNote m = false → m' = m)) s.tracks sa.tracks ∧
      List.Forall₂ (List.Forall₂ fun m m' => m'.type = m.type ∧ m'.time = m.time ∧
        m'.velocity = m.velocity ∧ (isNote m = false → m' = m)) s.tracks s1.tracks ∧
      List.Forall₂ (List.Forall₂ fun m m' => m'.type = m.type ∧ m'.time = m.time ∧
        m'.velocity = m.velocity ∧ (isNote m = false → m' = m)) s.tracks s2.tracks ∧
      List.Forall₂ (List.Forall₂ fun m m' => m'.type = m.type ∧ m'.time = m.time ∧
        m'.velocity = m.velocity ∧ (isNote m = false → m' = m)) s.tracks s3.tracks ∧
      ∀ (tick : Nat) (shift : Int) (m : Message) (ms : List Message), isNote m = false →
        alignTrack tick shift (m :: ms) = (alignTrack tick shift ms).map fun ms' => m :: ms' := by
  refine ⟨?_, ?_, ?_, ?_, ?_, ?_⟩
  · refine forall₂_map_self _ _ ?_ s.tracks
    intro t
    refine forall₂_map_self _ _ ?_ t
    intro m
    by_cases hn : isNote m = true
    · rw [if_pos hn]
      exact ⟨rfl, rfl, rfl, fun hf => by rw [hf] at hn; cases hn⟩
    · rw [if_neg hn]
      exact ⟨rfl, rfl, rfl, fun _ => rfl⟩
  · exact (exceptMap_forall₂ _ _ _ (align_ok_inv s p sa ha)).imp
      fun t t' htt' => alignTrack_frame _ t 0 t' htt'
  · exact (exceptMap_forall₂ _ _ _ (correct_pitch_ok_inv s notes shift_up s1 h1)).imp
      fun t t' htt' => shift_up_frame notes t t' htt'
  · exact (exceptMap_forall₂ _ _ _ (correct_pitch_ok_inv s notes shift_down s2 h2)).imp
      fun t t' htt' => shift_down_frame notes t t' htt'
  · exact (exceptMap_forall₂ _ _ _ (correct_pitch_ok_inv s notes shift_nearest s3 h3)).imp
      fun t t' htt' => shift_nearest_frame notes t t' htt'
  · intro tick shift m ms hf
    rw [alignTrack, if_neg (by simp [hf])]
    cases h2 : alignTrack tick shift ms with
    | error e => rfl
    | ok ms' => rfl

/-- The result of `align exStream 2`. -/
def alignedExStream : MidiFile :=
  ⟨4, [[⟨.note_on, 4, 60, 90⟩, ⟨.other, 3, 0, 0⟩, ⟨.note_off, 4, 60, 90⟩]]⟩

theorem C9_frame_effects_witness :
    (align exStream 2 = .ok alignedExStream ∧
        correct_pitch exStream [60] shift_up = .ok exStream ∧
        correct_pitch exStream [60] shift_down = .ok exStream ∧
        correct_pitch exStream [60] shift_nearest = .ok exStream) ∧
      List.Forall₂ (List.Forall₂ fun m m' => m'.type = m.type ∧ m'.time = m.time ∧
          m'.note = m.note ∧ (isNote m = false → m' = m))
        exStream.tracks (normalize exStream 64).tracks ∧
      List.Forall₂ (List.Forall₂ fun m m' => m'.type = m.type ∧ m'.note = m.note ∧
          m'.velocity = m.velocity ∧ (isNote m = false → m' = m))
        exStream.tracks alignedExStream.tracks ∧
      List.Forall₂ (List.Forall₂ fun m m' => m'.type = m.type ∧ m'.time = m.time ∧
          m'.velocity = m.velocity ∧ (isNote m = false → m' = m))
        exStream.tracks exStream.tracks ∧
      List.Forall₂ (List.Forall₂ fun m m' => m'.type = m.type ∧ m'.time = m.time ∧
          m'.velocity = m.velocity ∧ (isNote m = false → m' = m))
        exStream.tracks exStream.tracks ∧
      List.Forall₂ (List.Forall₂ fun m m' => m'.type = m.type ∧ m'.time = m.time ∧
          m'.velocity = m.velocity ∧ (isNote m = false → m' = m))
        exStream.tracks exStream.tracks ∧
      ∀ (tick : Nat) (shift : Int) (m : Message) (ms : List Message), isNote m = false →
        alignTrack tick shift (m :: ms) = (alignTrack tick shift ms).map fun ms' => m :: ms' :=
  ⟨⟨rfl, rfl, rfl, rfl⟩,
    C9_frame_effects exStream 64 2 [60] alignedExStream exStream exStream exStream
      rfl rfl rfl rfl⟩

example : (-3 : Int) % 5 = 2 := by decide
example : (-7 : Int) / 2 = -4 := by decide
example : rhe 5 2 = 2 := by decide
example : rhe 3 2 = 2 := by decide
example : rhe (-1) 2 = 0 := by decide
example : popcount 4 = 1 := by decide
example : popcount 6 = 2 := by decide
example : popcount 0 = 0 := by decide
example :
    align ⟨4, [[⟨.note_on, 5, 60, 90⟩, ⟨.other, 3, 0, 0⟩, ⟨.note_off, 2, 60, 90⟩]]⟩ 2 =
      .ok ⟨4, [[⟨.note_on, 4, 60, 90⟩, ⟨.other, 3, 0, 0⟩, ⟨.note_off, 4, 60, 90⟩]]⟩ := rfl

end Midilint
